import Mathlib

/-!
Verification of the secure CLI delegation layer of `obsidian-cli-mcp`
(`src/cli.ts`): input validation schemas, the argument-vector builder,
error classification, stderr filtering and JSON output parsing, shallowly
embedded over `List Char` / `String`.
-/

namespace ObsidianCliMcp

/-! ### JavaScript string primitives, modelled over `List Char` -/

/-- The JavaScript `\s` whitespace class (as used by `String.prototype.trim`
and regex `\s`). -/
def isJsSpace (c : Char) : Bool :=
  c.toNat = 9 || c.toNat = 10 || c.toNat = 11 || c.toNat = 12 ||
  c.toNat = 13 || c.toNat = 32 || c.toNat = 160 || c.toNat = 0x1680 ||
  (0x2000 ≤ c.toNat && c.toNat ≤ 0x200a) || c.toNat = 0x2028 ||
  c.toNat = 0x2029 || c.toNat = 0x202f || c.toNat = 0x205f ||
  c.toNat = 0x3000 || c.toNat = 0xfeff

/-- `String.prototype.trim` on a character list: strip leading and trailing
whitespace. -/
def jsTrimList (l : List Char) : List Char :=
  ((l.dropWhile isJsSpace).reverse.dropWhile isJsSpace).reverse

/-- `String.prototype.trim`. -/
def jsTrim (s : String) : String :=
  String.mk (jsTrimList s.data)

/-- `a.startsWith(b)` as a list computation (`startsWithList pat l` holds when
`pat` is an initial run of `l`). -/
def startsWithList : List Char → List Char → Bool
  | [], _ => true
  | _ :: _, [] => false
  | p :: ps, c :: cs => p = c && startsWithList ps cs

/-- `l.includes(pat)` as a list computation: `pat` occurs contiguously in `l`. -/
def containsSub (pat : List Char) : List Char → Bool
  | [] => pat.isEmpty
  | c :: rest => startsWithList pat (c :: rest) || containsSub pat rest

/-! ### The `PATH_UNSAFE` regex and the file/path schemas (`src/cli.ts:10-28`) -/

/-- One position of the `PATH_UNSAFE` regex alternative
`\.\.(?:[\\/]|$)`: the remaining input starts with `../` or `..\`, or is
exactly `..` (the `$` case). -/
def dotdotAt (l : List Char) : Bool :=
  startsWithList ['.', '.', '/'] l || startsWithList ['.', '.', '\\'] l ||
  decide (l = ['.', '.'])

/-- Unanchored scan for the `PATH_UNSAFE` alternatives `\.\.(?:[\\/]|$)` and
`\x00` at every position of the list. -/
def scanBad : List Char → Bool
  | [] => false
  | c :: rest => decide (c = Char.ofNat 0) || dotdotAt (c :: rest) || scanBad rest

/-- The regex `PATH_UNSAFE = /(?:^\/|\.\.(?:[\\/]|$)|\x00)/` of
`src/cli.ts:10`, as a test on a string. -/
def PATH_UNSAFE (s : String) : Bool :=
  startsWithList ['/'] s.data || scanBad s.data

/-- `safeFileSchema` of `src/cli.ts:12-19`: `z.string().min(1).max(10000)`
refined by `¬ PATH_UNSAFE`. `true` means the string is accepted. -/
def safeFileSchema (s : String) : Bool :=
  decide (1 ≤ s.length) && decide (s.length ≤ 10000) && !(PATH_UNSAFE s)

/-- `safePathSchema` of `src/cli.ts:21-28`: same bounds and refinement as
`safeFileSchema`. -/
def safePathSchema (s : String) : Bool :=
  decide (1 ≤ s.length) && decide (s.length ≤ 10000) && !(PATH_UNSAFE s)

/-- The list ends with the two characters `..`. -/
def endsWithDots : List Char → Bool
  | [] => false
  | c :: rest => (decide (c = '.') && decide (rest = ['.'])) || endsWithDots rest

/-- The forbidden-pattern predicate as the specification words it: a leading
`/`, a null byte anywhere, or a `..` occurrence immediately followed by `/`,
`\` or end-of-string. -/
def specPathForbidden (l : List Char) : Prop :=
  l.head? = some '/' ∨ Char.ofNat 0 ∈ l ∨
  containsSub ['.', '.', '/'] l = true ∨
  containsSub ['.', '.', '\\'] l = true ∨
  endsWithDots l = true

/-! ### Vault-name and extension schemas (`src/cli.ts:30-40, 50-55`) -/

/-- The regex class `\w`: ASCII letters, digits and underscore. -/
def isWordChar (c : Char) : Bool :=
  (decide ('a' ≤ c) && decide (c ≤ 'z')) ||
  (decide ('A' ≤ c) && decide (c ≤ 'Z')) ||
  (decide ('0' ≤ c) && decide (c ≤ '9')) || decide (c = '_')

/-- The character class `[\w\s\-().]` of the `vaultNameSchema` regex. -/
def vaultNameAllowed (c : Char) : Bool :=
  isWordChar c || isJsSpace c || decide (c = '-') || decide (c = '(') ||
  decide (c = ')') || decide (c = '.')

/-- `vaultNameSchema` of `src/cli.ts:30-40`:
`z.string().min(1).max(200).regex(/^[\w\s\-().]+$/)` refined by
`¬ startsWith "-"`. -/
def vaultNameSchema (s : String) : Bool :=
  decide (1 ≤ s.length) && decide (s.length ≤ 200) &&
  (!s.data.isEmpty && s.data.all vaultNameAllowed) &&
  !(startsWithList ['-'] s.data)

/-- The character class `[\w.]` of the `safeExtSchema` regex. -/
def extAllowed (c : Char) : Bool :=
  isWordChar c || decide (c = '.')

/-- `safeExtSchema` of `src/cli.ts:50-55`: `z.string().max(20)` with regex
`/^[\w.]+$/` (note the `+`: at least one character must be present). -/
def safeExtSchema (s : String) : Bool :=
  decide (s.length ≤ 20) && (!s.data.isEmpty && s.data.all extAllowed)

/-! ### Decimal rendering of numbers (JavaScript `String(number)` for
integral values, and the reference JSON serialization of numbers) -/

/-- The character for one decimal digit. -/
def digitChar (d : Nat) : Char :=
  if d = 0 then '0' else if d = 1 then '1' else if d = 2 then '2'
  else if d = 3 then '3' else if d = 4 then '4' else if d = 5 then '5'
  else if d = 6 then '6' else if d = 7 then '7' else if d = 8 then '8'
  else '9'

/-- Decimal digits of a natural number, most significant first (fuelled; any
fuel above the number itself is sufficient). -/
def natDigitsAux : Nat → Nat → List Char
  | 0, _ => []
  | fuel+1, n =>
    if n < 10 then [digitChar n]
    else natDigitsAux fuel (n / 10) ++ [digitChar (n % 10)]

/-- Decimal digits of a natural number, most significant first. -/
def natDigits (n : Nat) : List Char :=
  natDigitsAux (n + 1) n

/-- Decimal rendering of an integer as a character list. -/
def intChars (n : Int) : List Char :=
  if n < 0 then '-' :: natDigits n.natAbs else natDigits n.natAbs

/-- Decimal rendering of an integer as a string. -/
def numToString (n : Int) : String :=
  String.mk (intChars n)

/-! ### The argument builder (`src/cli.ts:59-96`) -/

/-- A flag value: `string | number | boolean | undefined` (numbers restricted
to integral values, the only ones the tool handlers produce). -/
inductive FlagValue where
  | str (s : String)
  | num (n : Int)
  | boolean (b : Bool)
  | undef

/-- `ObsidianRunOpts` of `src/cli.ts:59-64`. The flag record is modelled as an
insertion-ordered association list, matching `Object.entries` enumeration. -/
structure ObsidianRunOpts where
  command : String
  positional : Option (List String) := none
  flags : Option (List (String × FlagValue)) := none
  vault : Option String := none

/-- JavaScript `String(value)` for flag values. -/
def flagValueToString : FlagValue → String
  | .str s => s
  | .num n => numToString n
  | .boolean true => "true"
  | .boolean false => "false"
  | .undef => "undefined"

/-- One iteration of the flag loop of `buildObsidianArgs`
(`src/cli.ts:85-92`): skip `undefined` and `false`, push `--key` for `true`,
else push `--key=String(value)`. -/
def flagStep (acc : List String) (kv : String × FlagValue) : List String :=
  match kv.2 with
  | .undef => acc
  | .boolean false => acc
  | .boolean true => acc ++ ["--" ++ kv.1]
  | v => acc ++ ["--" ++ kv.1 ++ "=" ++ flagValueToString v]

/-- `buildObsidianArgs` of `src/cli.ts:66-96`: command name, then
`--vault=<v>` when `opts.vault ?? configVault` is truthy (non-empty), then the
positional tokens, then the flag tokens in insertion order. -/
def buildObsidianArgs (opts : ObsidianRunOpts) (configVault : Option String) :
    List String :=
  let args0 := [opts.command]
  let vault : Option String :=
    match opts.vault with
    | some v => some v
    | none => configVault
  let args1 :=
    match vault with
    | some v => if v ≠ "" then args0 ++ ["--vault=" ++ v] else args0
    | none => args0
  let args2 :=
    match opts.positional with
    | some ps => args1 ++ ps
    | none => args1
  match opts.flags with
  | some fs => fs.foldl flagStep args2
  | none => args2

/-- The vault flag tokens as the specification words them: resolve the
identity (explicit override, else configured default); a truthy (non-empty)
resolved value yields the single token `--vault=<value>`. -/
def vaultTokens (override configVault : Option String) : List String :=
  match (match override with | some v => some v | none => configVault) with
  | some v => if v = "" then [] else ["--vault=" ++ v]
  | none => []

/-- The flag tokens as the specification words them: absent/`false` values
produce nothing, `true` a bare `--name`, anything else `--name=value`. -/
def flagTokens : List (String × FlagValue) → List String
  | [] => []
  | (_, .undef) :: rest => flagTokens rest
  | (_, .boolean false) :: rest => flagTokens rest
  | (k, .boolean true) :: rest => ("--" ++ k) :: flagTokens rest
  | (k, v) :: rest => ("--" ++ k ++ "=" ++ flagValueToString v) :: flagTokens rest

/-- The token sequence as the specification describes it: command name, vault
flag, positional tokens verbatim, then per-flag tokens in insertion order. -/
def buildObsidianArgsSpec (opts : ObsidianRunOpts) (configVault : Option String) :
    List String :=
  opts.command ::
    (vaultTokens opts.vault configVault ++ opts.positional.getD [] ++
     flagTokens (opts.flags.getD []))

/-! ### Standard-error filtering (`src/cli.ts:159-172`) -/

/-- JavaScript `s.split("\n")` on a character list: the groups between
newlines (an empty input yields one empty group). -/
def splitOnNl : List Char → List (List Char)
  | [] => [[]]
  | c :: rest =>
    if c = '\n' then [] :: splitOnNl rest
    else
      match splitOnNl rest with
      | [] => [[c]]
      | g :: gs => (c :: g) :: gs

/-- JavaScript `lines.join("\n")`. -/
def joinNl : List (List Char) → List Char
  | [] => []
  | [g] => g
  | g :: gs => g ++ '\n' :: joinNl gs

/-- The line predicate of `filterStderr` (`src/cli.ts:163-169`): drop a line
whose trimmed form is empty, starts with `(node:` or contains
`ExperimentalWarning`. -/
def keepLine (line : List Char) : Bool :=
  let l := jsTrimList line
  !l.isEmpty && !(startsWithList ("(node:".data) l) &&
    !(containsSub ("ExperimentalWarning".data) l)

/-- The split/filter/join body of `filterStderr`. -/
def filterStderrCore (stderr : String) : String :=
  String.mk (joinNl ((splitOnNl stderr.data).filter keepLine))

/-- `filterStderr` of `src/cli.ts:159-172`: return `""` for a falsy input,
else split into lines, drop blank and diagnostic-noise lines, re-join. -/
def filterStderr (stderr : String) : String :=
  if stderr = "" then "" else filterStderrCore stderr

/-! ### Process execution and error classification (`src/cli.ts:100-142,
174-196`) -/

/-- The configuration record of `src/config.ts` (timeouts in
milliseconds). -/
structure Config where
  vault : String
  vaultPath : Option String
  obsidianCliPath : String
  obCliPath : String
  obsidianCliTimeout : Nat
  obCliTimeout : Nat

/-- The fields `wrapCliError` reads off a `child_process.execFile` rejection
(`src/cli.ts:179-185`). -/
structure ExecError where
  code : Option String := none
  killed : Bool := false
  signal : Option String := none
  stderr : Option String := none
  message : Option String := none

/-- The outcome of the awaited `execFile` call: resolution with captured
output, or rejection with an execution error. -/
inductive ExecOutcome where
  | success (stdout stderr : String)
  | failure (e : ExecError)

/-- The observable result of `runObsidianCli` / `runObCli`: a `CliResult`, or
a thrown error with its message. -/
inductive CliOutcome where
  | ok (stdout stderr : String)
  | thrown (msg : String)
deriving DecidableEq

/-- `wrapCliError` of `src/cli.ts:174-196`: a timeout message when the error
is flagged killed or signalled `SIGTERM`, else a failure message carrying the
trimmed raw stderr, or the error's own message, or `"Unknown error"`. -/
def wrapCliError (binary : String) (args : List String) (e : ExecError) :
    String :=
  if e.killed || decide (e.signal = some "SIGTERM") then
    binary ++ " command timed out: " ++ binary ++ " " ++
      String.intercalate " " args
  else
    let stderr := jsTrim (e.stderr.getD "")
    let detail :=
      if stderr ≠ "" then stderr
      else
        match e.message with
        | some m => if m ≠ "" then m else "Unknown error"
        | none => "Unknown error"
    binary ++ " command failed: " ++ detail

/-- `runObsidianCli` of `src/cli.ts:105-119`, parameterized by the external
process's outcome: on resolution return stdout and the filtered stderr, on
rejection throw `wrapCliError "obsidian" args err`. -/
def runObsidianCli (config : Config) (opts : ObsidianRunOpts)
    (exec : ExecOutcome) : CliOutcome :=
  let args := buildObsidianArgs opts (some config.vault)
  match exec with
  | .success out err => .ok out (filterStderr err)
  | .failure e => .thrown (wrapCliError "obsidian" args e)

/-- `runObCli` of `src/cli.ts:121-142`, parameterized by the external
process's outcome. -/
def runObCli (config : Config) (subcommand : String) (args : List String)
    (exec : ExecOutcome) : CliOutcome :=
  let fullArgs := subcommand :: args
  let fullArgs :=
    match config.vaultPath with
    | some p => if p ≠ "" then fullArgs ++ ["--path=" ++ p] else fullArgs
    | none => fullArgs
  match exec with
  | .success out err => .ok out (filterStderr err)
  | .failure e => .thrown (wrapCliError "ob" fullArgs e)

/-! ### JSON payloads (`parseJsonOutput`, `src/cli.ts:146-155`).
`JSON.parse` / `JSON.stringify` are JavaScript runtime builtins, not code of
this repository, so the structured-payload grammar is modelled from the
specification's words ("structured (JSON-like) parsing", "the reference
serialization"): a JSON value type, its reference serialization, and a
parser. -/

/-- Modelled from the spec: a structured (JSON-like) payload value — null,
boolean, (integral) number, string, array, or object with ordered string
keys. -/
inductive Json where
  | null
  | bool (b : Bool)
  | num (n : Int)
  | str (s : String)
  | arr (xs : List Json)
  | obj (kvs : List (String × Json))

/-- Escape one character for a JSON string literal. -/
def escChar (c : Char) : List Char :=
  if c = '"' then ['\\', '"']
  else if c = '\\' then ['\\', '\\']
  else if c = '\n' then ['\\', 'n']
  else if c = '\t' then ['\\', 't']
  else if c = '\r' then ['\\', 'r']
  else [c]

/-- Escape a character list for a JSON string literal. -/
def escape : List Char → List Char
  | [] => []
  | c :: rest => escChar c ++ escape rest

mutual

/-- Modelled from the spec: the reference serialization (`JSON.stringify`,
no extra whitespace) of a payload value. -/
def serializeJson : Json → List Char
  | .null => "null".data
  | .bool true => "true".data
  | .bool false => "false".data
  | .num n => intChars n
  | .str s => '"' :: (escape s.data ++ ['"'])
  | .arr xs => '[' :: (serializeElems xs ++ [']'])
  | .obj kvs => Char.ofNat 123 :: (serializeMembers kvs ++ [Char.ofNat 125])

/-- Serialization of comma-separated array elements. -/
def serializeElems : List Json → List Char
  | [] => []
  | [x] => serializeJson x
  | x :: xs => serializeJson x ++ ',' :: serializeElems xs

/-- Serialization of comma-separated object members. -/
def serializeMembers : List (String × Json) → List Char
  | [] => []
  | [(k, v)] => '"' :: (escape k.data ++ '"' :: ':' :: serializeJson v)
  | (k, v) :: kvs =>
    ('"' :: (escape k.data ++ '"' :: ':' :: serializeJson v)) ++
      ',' :: serializeMembers kvs

end

/-- Modelled from the spec: the reference serialization as a string. -/
def serialize (j : Json) : String :=
  String.mk (serializeJson j)

/-- A decimal digit character. -/
def isDigitChar (c : Char) : Bool :=
  decide ('0' ≤ c) && decide (c ≤ '9')

/-- Numeric value of a digit character. -/
def digitVal (c : Char) : Nat :=
  c.toNat - 48

/-- Parse a non-empty run of decimal digits into a number. -/
def parseDigits (l : List Char) : Option (Nat × List Char) :=
  let ds := l.takeWhile isDigitChar
  if ds.isEmpty then none
  else some (ds.foldl (fun a c => a * 10 + digitVal c) 0, l.dropWhile isDigitChar)

/-- JSON insignificant whitespace. -/
def isJsonWs (c : Char) : Bool :=
  c = ' ' || c = '\t' || c = '\n' || c = '\r'

/-- Skip JSON insignificant whitespace. -/
def skipWs (l : List Char) : List Char :=
  l.dropWhile isJsonWs

/-- Decode one escaped character of a JSON string literal. -/
def unescChar (c : Char) : Option Char :=
  if c = '"' then some '"'
  else if c = '\\' then some '\\'
  else if c = '/' then some '/'
  else if c = 'n' then some '\n'
  else if c = 't' then some '\t'
  else if c = 'r' then some '\r'
  else none

mutual

/-- Parse the body of a JSON string literal (after the opening quote), up to
and including the closing quote. -/
def parseStringBody : List Char → Option (List Char × List Char)
  | [] => none
  | c :: rest =>
    if c = '"' then some ([], rest)
    else if c = '\\' then parseEscapeSeq rest
    else
      match parseStringBody rest with
      | none => none
      | some (s, r) => some (c :: s, r)

/-- Parse what follows a backslash inside a JSON string literal. -/
def parseEscapeSeq : List Char → Option (List Char × List Char)
  | [] => none
  | e :: rest2 =>
    match unescChar e with
    | none => none
    | some u =>
      match parseStringBody rest2 with
      | none => none
      | some (s, r) => some (u :: s, r)

end

mutual

/-- Modelled from the spec: parse one JSON value (fuelled). -/
def parseValue : Nat → List Char → Option (Json × List Char)
  | 0, _ => none
  | fuel+1, l =>
    match skipWs l with
    | [] => none
    | c :: r =>
      if c = 'n' then
        match r with
        | 'u' :: 'l' :: 'l' :: r2 => some (.null, r2)
        | _ => none
      else if c = 't' then
        match r with
        | 'r' :: 'u' :: 'e' :: r2 => some (.bool true, r2)
        | _ => none
      else if c = 'f' then
        match r with
        | 'a' :: 'l' :: 's' :: 'e' :: r2 => some (.bool false, r2)
        | _ => none
      else if c = '"' then
        match parseStringBody r with
        | none => none
        | some (s, r2) => some (.str (String.mk s), r2)
      else if c = '[' then
        match parseElems fuel (skipWs r) with
        | none => none
        | some (xs, r2) => some (.arr xs, r2)
      else if c = Char.ofNat 123 then
        match parseMembers fuel (skipWs r) with
        | none => none
        | some (kvs, r2) => some (.obj kvs, r2)
      else if c = '-' then
        match parseDigits r with
        | none => none
        | some (n, r2) => some (.num (-(n : Int)), r2)
      else
        match parseDigits (c :: r) with
        | none => none
        | some (n, r2) => some (.num ((n : Int)), r2)

/-- Parse the elements of a JSON array (after the opening bracket and any
whitespace), up to and including the closing bracket. -/
def parseElems : Nat → List Char → Option (List Json × List Char)
  | 0, _ => none
  | fuel+1, l =>
    match l with
    | [] => none
    | c :: r =>
      if c = ']' then some ([], r)
      else
        match parseValue fuel (c :: r) with
        | none => none
        | some (v, r2) =>
          match skipWs r2 with
          | [] => none
          | c2 :: r3 =>
            if c2 = ',' then
              match parseElems fuel (skipWs r3) with
              | none => none
              | some (vs, r4) => some (v :: vs, r4)
            else if c2 = ']' then some ([v], r3)
            else none

/-- Parse the members of a JSON object (after the opening brace and any
whitespace), up to and including the closing brace. -/
def parseMembers : Nat → List Char → Option (List (String × Json) × List Char)
  | 0, _ => none
  | fuel+1, l =>
    match l with
    | [] => none
    | c :: r =>
      if c = Char.ofNat 125 then some ([], r)
      else if c = '"' then
        match parseStringBody r with
        | none => none
        | some (k, r2) =>
          match skipWs r2 with
          | [] => none
          | c2 :: r3 =>
            if c2 = ':' then
              match parseValue fuel (skipWs r3) with
              | none => none
              | some (v, r4) =>
                match skipWs r4 with
                | [] => none
                | c3 :: r5 =>
                  if c3 = ',' then
                    match parseMembers fuel (skipWs r5) with
                    | none => none
                    | some (kvs, r6) => some ((String.mk k, v) :: kvs, r6)
                  else if c3 = Char.ofNat 125 then
                    some ([(String.mk k, v)], r5)
                  else none
            else none
      else none

end

/-- Modelled from the spec: `JSON.parse` — parse one value and require that
only whitespace remains; the fuel `length + 1` is sufficient because every
recursive call consumes at least one input character. -/
def JSON_parse (s : String) : Option Json :=
  match parseValue (s.length + 1) s.data with
  | some (j, rest) => if (skipWs rest).isEmpty then some j else none
  | none => none

/-- The three shapes `parseJsonOutput` can return: the null marker, a parsed
structure, or raw trimmed text. -/
inductive ParsedOutput where
  | null
  | json (j : Json)
  | raw (s : String)

/-- `parseJsonOutput` of `src/cli.ts:146-155`: trim; empty gives `null`;
well-formed JSON gives the parsed structure; anything else gives the trimmed
raw text unchanged. -/
def parseJsonOutput (stdout : String) : ParsedOutput :=
  let trimmed := jsTrim stdout
  if trimmed = "" then .null
  else
    match JSON_parse trimmed with
    | some j => .json j
    | none => .raw trimmed

mutual

/-- Fuel sufficient for `parseValue` on one serialized value. -/
def needVal : Json → Nat
  | .null => 1
  | .bool _ => 1
  | .num _ => 1
  | .str _ => 1
  | .arr xs => 1 + needElems xs
  | .obj kvs => 1 + needMembers kvs

def needElems : List Json → Nat
  | [] => 1
  | x :: xs => 1 + max (needVal x) (needElems xs)

def needMembers : List (String × Json) → Nat
  | [] => 1
  | (_, v) :: kvs => 1 + max (needVal v) (needMembers kvs)

end

theorem startsWithSingle_iff (a : Char) (l : List Char) :
    startsWithList [a] l = true ↔ l.head? = some a := by
  cases l with
  | nil => simp [startsWithList]
  | cons c cs => simp [startsWithList, eq_comm]

theorem isEmpty_false_iff (l : List Char) : (l.isEmpty = false) ↔ l ≠ [] := by
  cases l <;> simp

theorem length_pos_iff (l : List Char) : (1 ≤ l.length) ↔ l ≠ [] :=
  ⟨fun h => List.length_pos.mp h, fun h => List.length_pos.mpr h⟩

theorem startsWith_false_iff (a : Char) (l : List Char) :
    (startsWithList [a] l = false) ↔ l.head? ≠ some a := by
  rw [ne_eq, ← startsWithSingle_iff a, Bool.not_eq_true]

theorem scanBad_iff (l : List Char) :
    scanBad l = true ↔
      (Char.ofNat 0 ∈ l ∨ containsSub ['.', '.', '/'] l = true ∨
       containsSub ['.', '.', '\\'] l = true ∨ endsWithDots l = true) := by
  induction l with
  | nil => simp [scanBad, containsSub, endsWithDots]
  | cons c rest ih =>
    simp only [scanBad, dotdotAt, containsSub, endsWithDots, List.mem_cons,
      Bool.or_eq_true, Bool.and_eq_true, decide_eq_true_eq, List.cons.injEq, ih]
    tauto

theorem PATH_UNSAFE_iff (s : String) :
    PATH_UNSAFE s = true ↔ specPathForbidden s.data := by
  unfold PATH_UNSAFE specPathForbidden
  simp only [Bool.or_eq_true, startsWithSingle_iff, scanBad_iff]

/-- C1: the file/path validators (`safeFileSchema` / `safePathSchema`) reject
exactly the strings that are empty, longer than 10,000 characters, start with
`/`, contain a null byte, or contain a `..` occurrence immediately followed by
`/`, `\` or end-of-string, and accept every other string; the two schemas
agree on every input. -/
theorem safeFileSchema_characterization :
    (∀ s : String, safeFileSchema s = true ↔
      (s.data ≠ [] ∧ s.data.length ≤ 10000 ∧ ¬ specPathForbidden s.data)) ∧
    (∀ s : String, safePathSchema s = safeFileSchema s) := by
  refine ⟨fun s => ?_, fun s => rfl⟩
  have hp := PATH_UNSAFE_iff s
  simp only [safeFileSchema, Bool.and_eq_true, decide_eq_true_eq, Bool.not_eq_true']
  constructor
  · rintro ⟨⟨h1, h2⟩, h3⟩
    exact ⟨List.length_pos.mp h1, h2, fun hc => by simp [hp.mpr hc] at h3⟩
  · rintro ⟨h1, h2, h3⟩
    refine ⟨⟨List.length_pos.mpr h1, h2⟩, ?_⟩
    cases hb : PATH_UNSAFE s
    · rfl
    · exact absurd (hp.mp hb) h3

theorem vaultNameSchema_iff (s : String) :
    vaultNameSchema s = true ↔
      (s.data ≠ [] ∧ s.data.length ≤ 200 ∧
       (∀ c ∈ s.data, vaultNameAllowed c = true) ∧ s.data.head? ≠ some '-') := by
  have hL : s.length = s.data.length := rfl
  simp only [vaultNameSchema, Bool.and_eq_true, decide_eq_true_eq,
    Bool.not_eq_true', List.all_eq_true, hL]
  rw [length_pos_iff, isEmpty_false_iff, startsWith_false_iff]
  tauto

/-- C3: `vaultNameSchema` accepts exactly the non-empty strings of at most 200
characters whose characters all lie in the allow-list (letters, digits,
underscore, whitespace, hyphen, parenthesis, period) and whose first character
is not a hyphen; a 200-character all-letter name is accepted, a 201-character
one is rejected, and `vault; rm -rf /` is rejected. -/
theorem vaultNameSchema_characterization :
    (∀ s : String, vaultNameSchema s = true ↔
      (s.data ≠ [] ∧ s.data.length ≤ 200 ∧
       (∀ c ∈ s.data, vaultNameAllowed c = true) ∧ s.data.head? ≠ some '-')) ∧
    vaultNameSchema (String.mk (List.replicate 200 'a')) = true ∧
    vaultNameSchema (String.mk (List.replicate 201 'a')) = false ∧
    vaultNameSchema "vault; rm -rf /" = false := by
  refine ⟨vaultNameSchema_iff, ?_, ?_, by decide⟩
  · rw [vaultNameSchema_iff]
    refine ⟨?_, ?_, fun c hc => ?_, ?_⟩
    · show List.replicate 200 'a' ≠ []
      intro h
      have h2 := congrArg List.length h
      rw [List.length_replicate] at h2
      simp at h2
    · show (List.replicate 200 'a').length ≤ 200
      rw [List.length_replicate]
    · rw [List.eq_of_mem_replicate hc]; decide
    · show (List.replicate 200 'a').head? ≠ some '-'
      intro h
      have hm : '-' ∈ List.replicate 200 'a' :=
        List.mem_of_mem_head? (Option.mem_def.mpr h)
      exact absurd (List.eq_of_mem_replicate hm) (by decide)
  · rcases Bool.eq_false_or_eq_true
      (vaultNameSchema (String.mk (List.replicate 201 'a'))) with hb | hb
    · exfalso
      obtain ⟨-, hlen, -⟩ := (vaultNameSchema_iff _).mp hb
      rw [show (String.mk (List.replicate 201 'a')).data
            = List.replicate 201 'a' from rfl, List.length_replicate] at hlen
      omega
    · exact hb

/-- C8 counterexample: the empty string satisfies the claimed acceptance
conditions (length at most 20, every character in the class) yet
`safeExtSchema` rejects it, because the regex `/^[\w.]+$/` requires at least
one character. -/
theorem safeExtSchema_empty_rejected :
    (String.length "" ≤ 20 ∧ ∀ c ∈ ("" : String).data, extAllowed c = true) ∧
    safeExtSchema "" = false := by
  exact ⟨⟨by decide, by decide⟩, by decide⟩

/-- C8 (amended): `safeExtSchema` accepts exactly the non-empty strings of at
most 20 characters whose characters are all letters, digits, underscores or
periods; the empty string is rejected. -/
theorem safeExtSchema_characterization :
    ∀ s : String, safeExtSchema s = true ↔
      (s.data ≠ [] ∧ s.data.length ≤ 20 ∧ ∀ c ∈ s.data, extAllowed c = true) := by
  intro s
  have hL : s.length = s.data.length := rfl
  simp only [safeExtSchema, Bool.and_eq_true, decide_eq_true_eq,
    Bool.not_eq_true', List.all_eq_true, hL]
  rw [isEmpty_false_iff]
  tauto

theorem foldl_flagStep (fs : List (String × FlagValue)) (acc : List String) :
    fs.foldl flagStep acc = acc ++ flagTokens fs := by
  induction fs generalizing acc with
  | nil => simp [flagTokens]
  | cons kv rest ih =>
    obtain ⟨k, v⟩ := kv
    cases v with
    | str s => simp [flagStep, flagTokens, ih]
    | num n => simp [flagStep, flagTokens, ih]
    | boolean b => cases b <;> simp [flagStep, flagTokens, ih]
    | undef => simp [flagStep, flagTokens, ih]

theorem buildObsidianArgs_eq_spec (opts : ObsidianRunOpts)
    (configVault : Option String) :
    buildObsidianArgs opts configVault = buildObsidianArgsSpec opts configVault := by
  obtain ⟨cmd, pos, fl, ov⟩ := opts
  simp only [buildObsidianArgs, buildObsidianArgsSpec, vaultTokens]
  cases ov with
  | some v =>
    cases pos <;> cases fl <;> by_cases hv : v = "" <;>
      simp [hv, foldl_flagStep, flagTokens, List.append_assoc]
  | none =>
    cases configVault with
    | some v =>
      cases pos <;> cases fl <;> by_cases hv : v = "" <;>
        simp [hv, foldl_flagStep, flagTokens, List.append_assoc]
    | none =>
      cases pos <;> cases fl <;> simp [foldl_flagStep, flagTokens]

/-- C2: `buildObsidianArgs` produces exactly the command name, then the vault
flag when the resolved vault identity is truthy, then the positional tokens
verbatim, then one token (or none) per flag in insertion order, as described
by `buildObsidianArgsSpec`; the scenario request builds exactly
`["read", "--vault=TestVault", "file=test.md"]`. -/
theorem buildObsidianArgs_spec_characterization :
    (∀ (opts : ObsidianRunOpts) (configVault : Option String),
      buildObsidianArgs opts configVault = buildObsidianArgsSpec opts configVault) ∧
    buildObsidianArgs ⟨"read", some ["file=test.md"], none, none⟩ (some "TestVault")
      = ["read", "--vault=TestVault", "file=test.md"] :=
  ⟨buildObsidianArgs_eq_spec, by decide⟩

/-- C6: a non-empty explicit vault override always wins: the built vector is
the command, then `--vault=<override>`, then the positional and flag tokens,
for every configured default. -/
theorem vault_override_precedence :
    ∀ (opts : ObsidianRunOpts) (configVault : Option String) (v : String),
      opts.vault = some v → v ≠ "" →
      buildObsidianArgs opts configVault =
        opts.command :: ("--vault=" ++ v) ::
          (opts.positional.getD [] ++ flagTokens (opts.flags.getD [])) := by
  intro opts cfg v hov hv
  rw [buildObsidianArgs_eq_spec]
  unfold buildObsidianArgsSpec vaultTokens
  rw [hov]
  simp [hv]

theorem vault_override_precedence_witness :
    buildObsidianArgs ⟨"read", some ["file=a.md"], none, some "Override"⟩
      (some "Default") = ["read", "--vault=" ++ "Override", "file=a.md"] :=
  vault_override_precedence
    ⟨"read", some ["file=a.md"], none, some "Override"⟩
    (some "Default") "Override" rfl (by decide)

/-- C10: an empty-string explicit vault override suppresses the vault flag
entirely, even when a non-empty default vault is configured. -/
theorem empty_vault_override_suppresses_flag :
    ∀ (opts : ObsidianRunOpts) (configVault : Option String),
      opts.vault = some "" →
      buildObsidianArgs opts configVault =
        opts.command ::
          (opts.positional.getD [] ++ flagTokens (opts.flags.getD [])) := by
  intro opts cfg hov
  rw [buildObsidianArgs_eq_spec]
  unfold buildObsidianArgsSpec vaultTokens
  rw [hov]
  simp

theorem empty_vault_override_suppresses_flag_witness :
    buildObsidianArgs ⟨"read", some ["file=a.md"], none, some ""⟩ (some "Default")
      = ["read", "file=a.md"] := by
  have h := empty_vault_override_suppresses_flag
    ⟨"read", some ["file=a.md"], none, some ""⟩ (some "Default") rfl
  simpa using h

/-- C4: when the execution error carries the killed flag or signal `SIGTERM`
(the timeout shape), the call resolves to a thrown timeout message naming the
binary and the attempted argument vector, and never to a successful result. -/
theorem timeout_always_thrown :
    ∀ (config : Config) (opts : ObsidianRunOpts) (e : ExecError),
      (e.killed = true ∨ e.signal = some "SIGTERM") →
      (runObsidianCli config opts (.failure e) =
         .thrown ("obsidian" ++ " command timed out: " ++ "obsidian" ++ " " ++
           String.intercalate " " (buildObsidianArgs opts (some config.vault))) ∧
       ∀ out err, runObsidianCli config opts (.failure e) ≠ .ok out err) := by
  intro config opts e h
  have hcond : (e.killed || decide (e.signal = some "SIGTERM")) = true := by
    rcases h with h | h <;> simp [h]
  refine ⟨?_, ?_⟩
  · simp only [runObsidianCli, wrapCliError, hcond, if_true]
  · intro out err hc
    simp only [runObsidianCli] at hc
    exact CliOutcome.noConfusion hc

theorem timeout_always_thrown_witness :
    runObsidianCli ⟨"TestVault", none, "obsidian", "ob", 30000, 60000⟩
        ⟨"read", some ["file=test.md"], none, none⟩
        (.failure ⟨none, true, none, none, none⟩) =
      .thrown "obsidian command timed out: obsidian read --vault=TestVault file=test.md" := by
  have h := (timeout_always_thrown ⟨"TestVault", none, "obsidian", "ob", 30000, 60000⟩
    ⟨"read", some ["file=test.md"], none, none⟩ ⟨none, true, none, none, none⟩
    (Or.inl rfl)).1
  rw [h]
  decide

/-- C5 counterexample: for a non-timeout execution error whose stderr is pure
diagnostic noise, the thrown failure carries the noise text verbatim — not
the §4.4-filtered stderr (which is empty here) and not the generic failure
message `boom` the claim would then require. -/
theorem wrapCliError_unfiltered_stderr :
    wrapCliError "obsidian" ["read"]
        ⟨none, false, none, some "(node:123) ExperimentalWarning: x", some "boom"⟩
      = "obsidian command failed: (node:123) ExperimentalWarning: x" ∧
    filterStderr "(node:123) ExperimentalWarning: x" = "" ∧
    "obsidian command failed: (node:123) ExperimentalWarning: x" ≠
      "obsidian command failed: boom" := by
  refine ⟨by decide, by decide, by decide⟩

/-- C5 (amended): for every non-timeout execution error, the failure message
carries the trimmed raw captured stderr (no noise filtering on the error
path), or, when that is empty, the error's own message (or
`"Unknown error"`). -/
theorem wrapCliError_nontimeout_detail :
    ∀ (binary : String) (args : List String) (e : ExecError),
      e.killed = false → e.signal ≠ some "SIGTERM" →
      wrapCliError binary args e =
        binary ++ " command failed: " ++
          (if jsTrim (e.stderr.getD "") ≠ "" then jsTrim (e.stderr.getD "")
           else
             match e.message with
             | some m => if m ≠ "" then m else "Unknown error"
             | none => "Unknown error") := by
  intro b args e hk hs
  have hcond : (e.killed || decide (e.signal = some "SIGTERM")) = false := by
    simp [hk, hs]
  simp only [wrapCliError, hcond, Bool.false_eq_true, if_false]

theorem wrapCliError_nontimeout_detail_witness :
    wrapCliError "obsidian" ["read"]
        ⟨none, false, none, some "  real error \n", some "boom"⟩
      = "obsidian command failed: real error" := by
  have h := wrapCliError_nontimeout_detail "obsidian" ["read"]
    ⟨none, false, none, some "  real error \n", some "boom"⟩ rfl (by decide)
  rw [h]
  decide

theorem splitOnNl_no_nl (g : List Char) (h : ('\n' : Char) ∉ g) :
    splitOnNl g = [g] := by
  induction g with
  | nil => rfl
  | cons c cs ih =>
    have hc : c ≠ '\n' := fun hh => h (by simp [hh])
    have hcs : ('\n' : Char) ∉ cs := fun hh => h (List.mem_cons_of_mem _ hh)
    simp only [splitOnNl, if_neg hc, ih hcs]

theorem splitOnNl_prepend (g t : List Char) (h : ('\n' : Char) ∉ g) :
    splitOnNl (g ++ '\n' :: t) = g :: splitOnNl t := by
  induction g with
  | nil => simp [splitOnNl]
  | cons c cs ih =>
    have hc : c ≠ '\n' := fun hh => h (by simp [hh])
    have hcs : ('\n' : Char) ∉ cs := fun hh => h (List.mem_cons_of_mem _ hh)
    simp only [List.cons_append, splitOnNl, if_neg hc]
    rw [show cs.append ('\n' :: t) = cs ++ '\n' :: t from rfl, ih hcs]

theorem splitOnNl_no_mem_nl (l : List Char) :
    ∀ g ∈ splitOnNl l, ('\n' : Char) ∉ g := by
  induction l with
  | nil =>
    intro g hg
    simp only [splitOnNl, List.mem_singleton] at hg
    rw [hg]
    simp
  | cons c rest ih =>
    intro g hg
    by_cases hc : c = '\n'
    · rw [show splitOnNl (c :: rest) = [] :: splitOnNl rest by
        simp [splitOnNl, hc]] at hg
      rcases List.mem_cons.mp hg with hg | hg
      · rw [hg]; simp
      · exact ih g hg
    · simp only [splitOnNl, if_neg hc] at hg
      cases hsr : splitOnNl rest with
      | nil =>
        rw [hsr] at hg
        simp only [List.mem_singleton] at hg
        rw [hg]
        simp [hc, Ne.symm hc]
      | cons g0 gs =>
        rw [hsr] at hg
        rcases List.mem_cons.mp hg with hg | hg
        · rw [hg]
          intro hmem
          rcases List.mem_cons.mp hmem with hx | hx
          · exact hc hx.symm
          · exact ih g0 (by rw [hsr]; exact List.mem_cons_self g0 gs) hx
        · exact ih g (by rw [hsr]; exact List.mem_cons_of_mem g0 hg)

theorem splitOnNl_joinNl (gs : List (List Char)) (hne : gs ≠ [])
    (hnl : ∀ g ∈ gs, ('\n' : Char) ∉ g) :
    splitOnNl (joinNl gs) = gs := by
  induction gs with
  | nil => exact absurd rfl hne
  | cons g rest ih =>
    cases rest with
    | nil =>
      show splitOnNl g = [g]
      exact splitOnNl_no_nl g (hnl g (List.mem_cons_self g []))
    | cons g2 rest2 =>
      show splitOnNl (g ++ '\n' :: joinNl (g2 :: rest2)) = g :: g2 :: rest2
      rw [splitOnNl_prepend g _ (hnl g (List.mem_cons_self g _))]
      rw [ih (by simp) (fun x hx => hnl x (List.mem_cons_of_mem g hx))]

theorem filter_self_idem (p : List Char → Bool) (l : List (List Char)) :
    (l.filter p).filter p = l.filter p := by
  induction l with
  | nil => rfl
  | cons g gs ih =>
    by_cases hp : p g
    · simp [List.filter_cons, hp, ih]
    · simp [List.filter_cons, hp, ih]

theorem filterStderrCore_idem (s : String) :
    filterStderrCore (filterStderrCore s) = filterStderrCore s := by
  unfold filterStderrCore
  have hdata : (String.mk (joinNl ((splitOnNl s.data).filter keepLine))).data
      = joinNl ((splitOnNl s.data).filter keepLine) := rfl
  rw [hdata]
  by_cases hnil : (splitOnNl s.data).filter keepLine = []
  · rw [hnil]
    rfl
  · rw [splitOnNl_joinNl _ hnil
      (fun g hg => splitOnNl_no_mem_nl s.data g (List.mem_of_mem_filter hg))]
    rw [filter_self_idem]

theorem isDigitChar_digitChar (d : Nat) : isDigitChar (digitChar d) = true := by
  unfold digitChar
  split_ifs <;> decide

theorem digitVal_digitChar (d : Nat) (h : d < 10) : digitVal (digitChar d) = d := by
  unfold digitChar digitVal
  interval_cases d <;> decide

theorem digitChar_head_props (d : Nat) :
    isJsonWs (digitChar d) = false ∧ digitChar d ≠ ']' ∧ digitChar d ≠ ',' := by
  unfold digitChar
  split_ifs <;> decide

theorem digitChar_not_special (d : Nat) :
    digitChar d ≠ 'n' ∧ digitChar d ≠ 't' ∧ digitChar d ≠ 'f' ∧
    digitChar d ≠ '"' ∧ digitChar d ≠ '[' ∧ digitChar d ≠ Char.ofNat 123 ∧
    digitChar d ≠ '-' := by
  unfold digitChar
  split_ifs <;> decide

theorem natDigitsAux_all_digit :
    ∀ fuel n, n < fuel → ∀ c ∈ natDigitsAux fuel n, isDigitChar c = true := by
  intro fuel
  induction fuel with
  | zero => intro n h; omega
  | succ f ih =>
    intro n h c hc
    rw [natDigitsAux] at hc
    by_cases h10 : n < 10
    · rw [if_pos h10] at hc
      simp only [List.mem_singleton] at hc
      rw [hc]
      exact isDigitChar_digitChar n
    · rw [if_neg h10] at hc
      rcases List.mem_append.mp hc with hc | hc
      · exact ih (n / 10) (by omega) c hc
      · simp only [List.mem_singleton] at hc
        rw [hc]
        exact isDigitChar_digitChar _

theorem natDigitsAux_head :
    ∀ fuel n, n < fuel → ∃ d t, natDigitsAux fuel n = digitChar d :: t := by
  intro fuel
  induction fuel with
  | zero => intro n h; omega
  | succ f ih =>
    intro n h
    rw [natDigitsAux]
    by_cases h10 : n < 10
    · rw [if_pos h10]
      exact ⟨n, [], rfl⟩
    · rw [if_neg h10]
      obtain ⟨d, t, ht⟩ := ih (n / 10) (by omega)
      exact ⟨d, t ++ [digitChar (n % 10)], by rw [ht]; rfl⟩

theorem natDigitsAux_foldl :
    ∀ fuel n, n < fuel → ∀ a : Nat,
      (natDigitsAux fuel n).foldl (fun acc c => acc * 10 + digitVal c) a
        = a * 10 ^ (natDigitsAux fuel n).length + n := by
  intro fuel
  induction fuel with
  | zero => intro n h; omega
  | succ f ih =>
    intro n h a
    rw [natDigitsAux]
    by_cases h10 : n < 10
    · rw [if_pos h10]
      simp only [List.foldl_cons, List.foldl_nil, List.length_cons,
        List.length_nil, pow_one, digitVal_digitChar n h10]
      norm_num
    · rw [if_neg h10]
      rw [List.foldl_append, ih (n / 10) (by omega) a]
      simp only [List.foldl_cons, List.foldl_nil,
        digitVal_digitChar (n % 10) (by omega)]
      rw [List.length_append, List.length_singleton, pow_succ]
      rw [Nat.add_mul, Nat.mul_assoc, Nat.add_assoc]
      congr 1
      omega

theorem takeWhile_append_of_all (p : Char → Bool) (ds t : List Char)
    (hds : ∀ c ∈ ds, p c = true) (ht : ∀ c, t.head? = some c → p c = false) :
    (ds ++ t).takeWhile p = ds ∧ (ds ++ t).dropWhile p = t := by
  induction ds with
  | nil =>
    simp only [List.nil_append]
    cases t with
    | nil => exact ⟨rfl, rfl⟩
    | cons c r =>
      have hc := ht c rfl
      simp [List.takeWhile_cons, List.dropWhile_cons, hc]
  | cons d ds ih =>
    have hd : p d = true := hds d (List.mem_cons_self d ds)
    obtain ⟨h1, h2⟩ := ih (fun c hc => hds c (List.mem_cons_of_mem d hc))
    simp [List.cons_append, List.takeWhile_cons, List.dropWhile_cons, hd, h1, h2]

theorem parseDigits_natDigits (n : Nat) (t : List Char)
    (ht : ∀ c, t.head? = some c → isDigitChar c = false) :
    parseDigits (natDigits n ++ t) = some (n, t) := by
  obtain ⟨htake, hdrop⟩ := takeWhile_append_of_all isDigitChar (natDigits n) t
    (natDigitsAux_all_digit (n + 1) n (by omega)) ht
  obtain ⟨d, t0, hh⟩ := natDigitsAux_head (n + 1) n (by omega)
  have hne : (natDigits n).isEmpty = false := by
    rw [show natDigits n = digitChar d :: t0 from hh]
    rfl
  have hf := natDigitsAux_foldl (n + 1) n (by omega) 0
  simp only [parseDigits, htake, hdrop, hne, Bool.false_eq_true, if_false]
  rw [show natDigits n = natDigitsAux (n + 1) n from rfl, hf]
  simp

theorem parseStringBody_escape (s rest : List Char) :
    parseStringBody (escape s ++ '"' :: rest) = some (s, rest) := by
  induction s with
  | nil => simp [escape, parseStringBody]
  | cons c cs ih =>
    show parseStringBody ((escChar c ++ escape cs) ++ '"' :: rest)
      = some (c :: cs, rest)
    rw [List.append_assoc]
    by_cases h1 : c = '"'
    · subst h1
      rw [show escChar '"' = ['\\', '"'] from rfl]
      simp [parseStringBody, parseEscapeSeq, unescChar, ih]
    · by_cases h2 : c = '\\'
      · subst h2
        rw [show escChar '\\' = ['\\', '\\'] from rfl]
        simp [parseStringBody, parseEscapeSeq, unescChar, ih]
      · by_cases h3 : c = '\n'
        · subst h3
          rw [show escChar '\n' = ['\\', 'n'] from rfl]
          simp [parseStringBody, parseEscapeSeq, unescChar, ih]
        · by_cases h4 : c = '\t'
          · subst h4
            rw [show escChar '\t' = ['\\', 't'] from rfl]
            simp [parseStringBody, parseEscapeSeq, unescChar, ih]
          · by_cases h5 : c = '\r'
            · subst h5
              rw [show escChar '\r' = ['\\', 'r'] from rfl]
              simp [parseStringBody, parseEscapeSeq, unescChar, ih]
            · have he : escChar c = [c] := by
                simp [escChar, h1, h2, h3, h4, h5]
              rw [he]
              show parseStringBody (c :: (escape cs ++ '"' :: rest)) = _
              simp [parseStringBody, h1, h2, ih]

theorem skipWs_cons_not_ws (c : Char) (t : List Char) (h : isJsonWs c = false) :
    skipWs (c :: t) = c :: t := by
  simp [skipWs, List.dropWhile_cons, h]

theorem serializeJson_head (j : Json) :
    ∃ c t, serializeJson j = c :: t ∧ isJsonWs c = false ∧ c ≠ ']' ∧ c ≠ ',' := by
  cases j with
  | num n =>
    show ∃ c t, intChars n = c :: t ∧ _
    unfold intChars
    by_cases hn : n < 0
    · rw [if_pos hn]
      refine ⟨'-', _, rfl, ?_, ?_, ?_⟩ <;> decide
    · rw [if_neg hn]
      obtain ⟨d, t, ht⟩ := natDigitsAux_head (n.natAbs + 1) n.natAbs (by omega)
      obtain ⟨hw, hb, hc⟩ := digitChar_head_props d
      exact ⟨digitChar d, t, ht, hw, hb, hc⟩
  | bool b =>
    rcases b with _ | _
    · refine ⟨'f', _, rfl, ?_, ?_, ?_⟩ <;> decide
    · refine ⟨'t', _, rfl, ?_, ?_, ?_⟩ <;> decide
  | null => refine ⟨'n', _, rfl, ?_, ?_, ?_⟩ <;> decide
  | str s => refine ⟨'"', _, rfl, ?_, ?_, ?_⟩ <;> decide
  | arr xs => refine ⟨'[', _, rfl, ?_, ?_, ?_⟩ <;> decide
  | obj kvs => refine ⟨Char.ofNat 123, _, rfl, ?_, ?_, ?_⟩ <;> decide

theorem needVal_pos (j : Json) : 1 ≤ needVal j := by
  cases j <;> simp [needVal]

theorem needElems_pos (xs : List Json) : 1 ≤ needElems xs := by
  cases xs <;> simp [needElems]

theorem needMembers_pos (kvs : List (String × Json)) : 1 ≤ needMembers kvs := by
  cases kvs with
  | nil => simp [needMembers]
  | cons kv t =>
    obtain ⟨k, v⟩ := kv
    simp [needMembers]

/-- C9: the standard-error filter is idempotent — filtering already-filtered
text returns it unchanged. -/
theorem filterStderr_idempotent :
    ∀ s : String, filterStderr (filterStderr s) = filterStderr s := by
  intro s
  unfold filterStderr
  by_cases hs : s = ""
  · simp [hs]
  · rw [if_neg hs]
    by_cases h0 : filterStderrCore s = ""
    · rw [if_pos h0, h0]
    · rw [if_neg h0]
      exact filterStderrCore_idem s

theorem skipWs_serializeJson (j : Json) (t : List Char) :
    skipWs (serializeJson j ++ t) = serializeJson j ++ t := by
  obtain ⟨c, u, hser, hws, -, -⟩ := serializeJson_head j
  rw [hser, List.cons_append, skipWs_cons_not_ws c _ hws]

theorem skipWs_serializeElems (xs : List Json) (t : List Char) :
    skipWs (serializeElems xs ++ ']' :: t) = serializeElems xs ++ ']' :: t := by
  cases xs with
  | nil =>
    show skipWs (([] : List Char) ++ ']' :: t) = ([] : List Char) ++ ']' :: t
    rw [List.nil_append]
    exact skipWs_cons_not_ws ']' t (by decide)
  | cons x xs2 =>
    obtain ⟨c, u, hser, hws, -, -⟩ := serializeJson_head x
    have hform : ∃ T, serializeElems (x :: xs2) = c :: T := by
      cases xs2 with
      | nil => exact ⟨u, by rw [show serializeElems [x] = serializeJson x from rfl, hser]⟩
      | cons y ys =>
        refine ⟨u ++ ',' :: serializeElems (y :: ys), ?_⟩
        rw [show serializeElems (x :: y :: ys)
            = serializeJson x ++ ',' :: serializeElems (y :: ys) from rfl, hser]
        rfl
    obtain ⟨T, hT⟩ := hform
    rw [hT, List.cons_append, skipWs_cons_not_ws c _ hws]

theorem skipWs_serializeMembers (kvs : List (String × Json)) (t : List Char) :
    skipWs (serializeMembers kvs ++ Char.ofNat 125 :: t)
      = serializeMembers kvs ++ Char.ofNat 125 :: t := by
  cases kvs with
  | nil =>
    show skipWs (([] : List Char) ++ Char.ofNat 125 :: t)
      = ([] : List Char) ++ Char.ofNat 125 :: t
    rw [List.nil_append]
    exact skipWs_cons_not_ws (Char.ofNat 125) t (by decide)
  | cons kv kvs2 =>
    obtain ⟨k, v⟩ := kv
    have hform : ∃ T, serializeMembers ((k, v) :: kvs2) = '"' :: T := by
      cases kvs2 with
      | nil => exact ⟨escape k.data ++ '"' :: ':' :: serializeJson v, rfl⟩
      | cons kv2 t2 =>
        exact ⟨(escape k.data ++ '"' :: ':' :: serializeJson v) ++
          ',' :: serializeMembers (kv2 :: t2), rfl⟩
    obtain ⟨T, hT⟩ := hform
    rw [hT, List.cons_append, skipWs_cons_not_ws '"' _ (by decide)]



set_option maxHeartbeats 1000000 in
theorem parse_serialize_roundtrip :
    ∀ fuel : Nat,
      (∀ (j : Json) (rest : List Char), needVal j ≤ fuel →
        (∀ c, rest.head? = some c → isDigitChar c = false) →
        parseValue fuel (serializeJson j ++ rest) = some (j, rest)) ∧
      (∀ (xs : List Json) (rest : List Char), needElems xs ≤ fuel →
        parseElems fuel (serializeElems xs ++ ']' :: rest) = some (xs, rest)) ∧
      (∀ (kvs : List (String × Json)) (rest : List Char), needMembers kvs ≤ fuel →
        parseMembers fuel (serializeMembers kvs ++ Char.ofNat 125 :: rest)
          = some (kvs, rest)) := by
  intro fuel
  induction fuel with
  | zero =>
    refine ⟨fun j rest h _ => ?_, fun xs rest h => ?_, fun kvs rest h => ?_⟩
    · exact absurd h (by have := needVal_pos j; omega)
    · exact absurd h (by have := needElems_pos xs; omega)
    · exact absurd h (by have := needMembers_pos kvs; omega)
  | succ f ih =>
    obtain ⟨ihP, ihQ, ihR⟩ := ih
    refine ⟨?_, ?_, ?_⟩
    · intro j rest hf hrest
      cases j with
      | null => rfl
      | bool b => cases b <;> rfl
      | num n =>
        show parseValue (f+1) (intChars n ++ rest) = some (.num n, rest)
        unfold intChars
        by_cases hn : n < 0
        · rw [if_pos hn, List.cons_append]
          have hd := parseDigits_natDigits n.natAbs rest hrest
          show (match parseDigits (natDigits n.natAbs ++ rest) with
                | none => none
                | some (m, r2) => some (Json.num (-(m : Int)), r2))
            = some (.num n, rest)
          rw [hd]
          show some (Json.num (-(n.natAbs : Int)), rest) = some (Json.num n, rest)
          rw [show (-(n.natAbs : Int)) = n from by omega]
        · rw [if_neg hn]
          have hd := parseDigits_natDigits n.natAbs rest hrest
          obtain ⟨d, t0, ht'⟩ := natDigitsAux_head (n.natAbs + 1) n.natAbs (by omega)
          have ht : natDigits n.natAbs = digitChar d :: t0 := ht'
          obtain ⟨hn1, hn2, hn3, hn4, hn5, hn6, hn7⟩ := digitChar_not_special d
          rw [ht, List.cons_append] at hd ⊢
          simp only [parseValue, skipWs_cons_not_ws _ _ (digitChar_head_props d).1,
            hn1, hn2, hn3, hn4, hn5, hn6, hn7, ite_false, ite_true, hd]
          rw [show ((n.natAbs : Int)) = n from by omega]
      | str s =>
        show parseValue (f+1) (('"' :: (escape s.data ++ ['"'])) ++ rest)
          = some (.str s, rest)
        rw [List.cons_append, List.append_assoc]
        have hb := parseStringBody_escape s.data rest
        show (match parseStringBody (escape s.data ++ '"' :: rest) with
              | none => none
              | some (t, r2) => some (Json.str (String.mk t), r2))
          = some (.str s, rest)
        rw [hb]
      | arr xs =>
        show parseValue (f+1) (('[' :: (serializeElems xs ++ [']'])) ++ rest)
          = some (.arr xs, rest)
        rw [List.cons_append, List.append_assoc]
        have hQ := ihQ xs rest (by simp only [needVal] at hf; omega)
        show (match parseElems f (skipWs (serializeElems xs ++ ']' :: rest)) with
              | none => none
              | some (ys, r2) => some (Json.arr ys, r2))
          = some (.arr xs, rest)
        rw [skipWs_serializeElems, hQ]
      | obj kvs =>
        show parseValue (f+1)
            ((Char.ofNat 123 :: (serializeMembers kvs ++ [Char.ofNat 125])) ++ rest)
          = some (.obj kvs, rest)
        rw [List.cons_append, List.append_assoc]
        have hR := ihR kvs rest (by simp only [needVal] at hf; omega)
        show (match parseMembers f
                (skipWs (serializeMembers kvs ++ Char.ofNat 125 :: rest)) with
              | none => none
              | some (ys, r2) => some (Json.obj ys, r2))
          = some (.obj kvs, rest)
        rw [skipWs_serializeMembers, hR]
    · intro xs rest hf
      cases xs with
      | nil =>
        show parseElems (f+1) (([] : List Char) ++ ']' :: rest) = some ([], rest)
        rfl
      | cons x xs2 =>
        obtain ⟨c0, t0, hser, hws, hbr, hcm⟩ := serializeJson_head x
        cases xs2 with
        | nil =>
          show parseElems (f+1) (serializeJson x ++ ']' :: rest) = some ([x], rest)
          have hP := ihP x (']' :: rest)
            (by simp only [needElems] at hf; omega)
            (fun c hc => by
              simp only [List.head?_cons, Option.some.injEq] at hc
              rw [← hc]; decide)
          rw [hser, List.cons_append]
          simp only [parseElems, hbr, ite_false]
          rw [← List.cons_append, ← hser, hP]
          rfl
        | cons x2 xs3 =>
          show parseElems (f+1)
              ((serializeJson x ++ ',' :: serializeElems (x2 :: xs3)) ++ ']' :: rest)
            = some (x :: x2 :: xs3, rest)
          rw [List.append_assoc, List.cons_append]
          have hP := ihP x (',' :: (serializeElems (x2 :: xs3) ++ ']' :: rest))
            (by simp only [needElems] at hf; omega)
            (fun c hc => by
              simp only [List.head?_cons, Option.some.injEq] at hc
              rw [← hc]; decide)
          have hQ2 := ihQ (x2 :: xs3) rest (by simp only [needElems] at hf ⊢; omega)
          rw [hser, List.cons_append]
          simp only [parseElems, hbr, ite_false]
          rw [← List.cons_append, ← hser, hP]
          show (match parseElems f
                  (skipWs (serializeElems (x2 :: xs3) ++ ']' :: rest)) with
                | none => none
                | some (vs, r4) => some (x :: vs, r4)) = some (x :: x2 :: xs3, rest)
          rw [skipWs_serializeElems, hQ2]
    · intro kvs rest hf
      cases kvs with
      | nil =>
        show parseMembers (f+1) (([] : List Char) ++ Char.ofNat 125 :: rest)
          = some ([], rest)
        rfl
      | cons kv kvs2 =>
        obtain ⟨k, v⟩ := kv
        cases kvs2 with
        | nil =>
          show parseMembers (f+1)
              (('"' :: (escape k.data ++ '"' :: ':' :: serializeJson v)) ++
                Char.ofNat 125 :: rest)
            = some ([(k, v)], rest)
          rw [List.cons_append, List.append_assoc]
          have hsb := parseStringBody_escape k.data
            (':' :: (serializeJson v ++ Char.ofNat 125 :: rest))
          have hP := ihP v (Char.ofNat 125 :: rest)
            (by simp only [needMembers] at hf; omega)
            (fun c hc => by
              simp only [List.head?_cons, Option.some.injEq] at hc
              rw [← hc]; decide)
          show (match parseStringBody
                  (escape k.data ++ '"' :: ':' ::
                    (serializeJson v ++ Char.ofNat 125 :: rest)) with
                | none => none
                | some (kk, r2) =>
                  match skipWs r2 with
                  | [] => none
                  | c2 :: r3 =>
                    if c2 = ':' then
                      match parseValue f (skipWs r3) with
                      | none => none
                      | some (v2, r4) =>
                        match skipWs r4 with
                        | [] => none
                        | c3 :: r5 =>
                          if c3 = ',' then
                            match parseMembers f (skipWs r5) with
                            | none => none
                            | some (kvs3, r6) =>
                              some ((String.mk kk, v2) :: kvs3, r6)
                          else if c3 = Char.ofNat 125 then
                            some ([(String.mk kk, v2)], r5)
                          else none
                    else none) = some ([(k, v)], rest)
          rw [hsb]
          show (match parseValue f
                  (skipWs (serializeJson v ++ Char.ofNat 125 :: rest)) with
                | none => none
                | some (v2, r4) =>
                  match skipWs r4 with
                  | [] => none
                  | c3 :: r5 =>
                    if c3 = ',' then
                      match parseMembers f (skipWs r5) with
                      | none => none
                      | some (kvs3, r6) =>
                        some ((String.mk k.data, v2) :: kvs3, r6)
                    else if c3 = Char.ofNat 125 then
                      some ([(String.mk k.data, v2)], r5)
                    else none) = some ([(k, v)], rest)
          rw [skipWs_serializeJson, hP]
          rfl
        | cons kv2 kvs3 =>
          show parseMembers (f+1)
              ((('"' :: (escape k.data ++ '"' :: ':' :: serializeJson v)) ++
                ',' :: serializeMembers (kv2 :: kvs3)) ++ Char.ofNat 125 :: rest)
            = some ((k, v) :: kv2 :: kvs3, rest)
          rw [List.append_assoc, List.cons_append, List.cons_append,
            List.append_assoc]
          have hsb := parseStringBody_escape k.data
            (':' :: (serializeJson v ++
              ',' :: (serializeMembers (kv2 :: kvs3) ++ Char.ofNat 125 :: rest)))
          have hP := ihP v
            (',' :: (serializeMembers (kv2 :: kvs3) ++ Char.ofNat 125 :: rest))
            (by simp only [needMembers] at hf; omega)
            (fun c hc => by
              simp only [List.head?_cons, Option.some.injEq] at hc
              rw [← hc]; decide)
          have hR2 := ihR (kv2 :: kvs3) rest
            (by simp only [needMembers] at hf ⊢; omega)
          show (match parseStringBody
                  (escape k.data ++ '"' :: ':' ::
                    (serializeJson v ++
                      ',' :: (serializeMembers (kv2 :: kvs3) ++
                        Char.ofNat 125 :: rest))) with
                | none => none
                | some (kk, r2) =>
                  match skipWs r2 with
                  | [] => none
                  | c2 :: r3 =>
                    if c2 = ':' then
                      match parseValue f (skipWs r3) with
                      | none => none
                      | some (v2, r4) =>
                        match skipWs r4 with
                        | [] => none
                        | c3 :: r5 =>
                          if c3 = ',' then
                            match parseMembers f (skipWs r5) with
                            | none => none
                            | some (kvs4, r6) =>
                              some ((String.mk kk, v2) :: kvs4, r6)
                          else if c3 = Char.ofNat 125 then
                            some ([(String.mk kk, v2)], r5)
                          else none
                    else none) = some ((k, v) :: kv2 :: kvs3, rest)
          rw [hsb]
          show (match parseValue f
                  (skipWs (serializeJson v ++
                    ',' :: (serializeMembers (kv2 :: kvs3) ++
                      Char.ofNat 125 :: rest))) with
                | none => none
                | some (v2, r4) =>
                  match skipWs r4 with
                  | [] => none
                  | c3 :: r5 =>
                    if c3 = ',' then
                      match parseMembers f (skipWs r5) with
                      | none => none
                      | some (kvs4, r6) =>
                        some ((String.mk k.data, v2) :: kvs4, r6)
                    else if c3 = Char.ofNat 125 then
                      some ([(String.mk k.data, v2)], r5)
                    else none) = some ((k, v) :: kv2 :: kvs3, rest)
          rw [skipWs_serializeJson, hP]
          show (match parseMembers f
                  (skipWs (serializeMembers (kv2 :: kvs3) ++
                    Char.ofNat 125 :: rest)) with
                | none => none
                | some (kvs4, r6) =>
                  some ((String.mk k.data, v) :: kvs4, r6))
            = some ((k, v) :: kv2 :: kvs3, rest)
          rw [skipWs_serializeMembers, hR2]



theorem need_le_serialized_bound :
    ∀ n : Nat,
      (∀ j : Json, needVal j ≤ n → needVal j ≤ (serializeJson j).length + 1) ∧
      (∀ xs : List Json, needElems xs ≤ n →
        needElems xs ≤ (serializeElems xs).length + 2) ∧
      (∀ kvs : List (String × Json), needMembers kvs ≤ n →
        needMembers kvs ≤ (serializeMembers kvs).length + 2) := by
  intro n
  induction n with
  | zero =>
    refine ⟨fun j h => ?_, fun xs h => ?_, fun kvs h => ?_⟩
    · exact absurd h (by have := needVal_pos j; omega)
    · exact absurd h (by have := needElems_pos xs; omega)
    · exact absurd h (by have := needMembers_pos kvs; omega)
  | succ m ih =>
    obtain ⟨ihA, ihB, ihC⟩ := ih
    refine ⟨fun j h => ?_, fun xs h => ?_, fun kvs h => ?_⟩
    · cases j with
      | null => simp only [needVal]; omega
      | bool b => simp only [needVal]; omega
      | num n2 => simp only [needVal]; omega
      | str s => simp only [needVal]; omega
      | arr xs =>
        have hb := ihB xs (by simp only [needVal] at h; omega)
        simp only [needVal, serializeJson, List.length_cons, List.length_append] at hb ⊢
        omega
      | obj kvs =>
        have hc := ihC kvs (by simp only [needVal] at h; omega)
        simp only [needVal, serializeJson, List.length_cons, List.length_append] at hc ⊢
        omega
    · cases xs with
      | nil => simp only [needElems, serializeElems]; omega
      | cons x xs2 =>
        have hA := ihA x (by simp only [needElems] at h; omega)
        cases xs2 with
        | nil =>
          simp only [needElems, serializeElems] at hA ⊢
          omega
        | cons x2 xs3 =>
          have hB := ihB (x2 :: xs3) (by simp only [needElems] at h ⊢; omega)
          simp only [needElems, serializeElems, List.length_append,
            List.length_cons] at hA hB ⊢
          omega
    · cases kvs with
      | nil => simp only [needMembers, serializeMembers]; omega
      | cons kv kvs2 =>
        obtain ⟨k, v⟩ := kv
        have hA := ihA v (by simp only [needMembers] at h; omega)
        cases kvs2 with
        | nil =>
          simp only [needMembers, serializeMembers, List.length_cons,
            List.length_append] at hA ⊢
          omega
        | cons kv2 kvs3 =>
          have hC := ihC (kv2 :: kvs3) (by simp only [needMembers] at h ⊢; omega)
          simp only [needMembers, serializeMembers, List.length_cons,
            List.length_append] at hA hC ⊢
          omega

theorem needVal_le_serialized (j : Json) :
    needVal j ≤ (serializeJson j).length + 1 :=
  (need_le_serialized_bound (needVal j)).1 j le_rfl

theorem JSON_parse_serialize (j : Json) : JSON_parse (serialize j) = some j := by
  have hP := (parse_serialize_roundtrip ((serializeJson j).length + 1)).1 j []
    (needVal_le_serialized j) (fun c hc => by simp at hc)
  rw [List.append_nil] at hP
  show (match parseValue ((serializeJson j).length + 1) (serializeJson j) with
        | some (j2, rest) => if (skipWs rest).isEmpty then some j2 else none
        | none => none) = some j
  rw [hP]
  rfl

/-- C7: `parseJsonOutput` returns the null marker exactly when the trimmed
captured output is empty; parsing inverts the reference serialization of
every structured payload (round trip), so such output maps to an equivalent
structure; and when structured parsing fails the trimmed raw text is returned
unchanged. -/
theorem parseJsonOutput_characterization :
    (∀ s : String, jsTrim s = "" → parseJsonOutput s = .null) ∧
    (∀ j : Json, JSON_parse (serialize j) = some j) ∧
    (∀ (s : String) (j : Json), jsTrim s ≠ "" → JSON_parse (jsTrim s) = some j →
      parseJsonOutput s = .json j) ∧
    (∀ s : String, jsTrim s ≠ "" → JSON_parse (jsTrim s) = none →
      parseJsonOutput s = .raw (jsTrim s)) := by
  refine ⟨fun s h => ?_, JSON_parse_serialize, fun s j h hj => ?_, fun s h hj => ?_⟩
  · simp only [parseJsonOutput]
    rw [if_pos h]
  · simp only [parseJsonOutput]
    rw [if_neg h, hj]
  · simp only [parseJsonOutput]
    rw [if_neg h, hj]

theorem parseJsonOutput_characterization_witness :
    parseJsonOutput "  " = ParsedOutput.null ∧
    parseJsonOutput " [1,\"a\",null] "
      = ParsedOutput.json (Json.arr [Json.num 1, Json.str "a", Json.null]) ∧
    parseJsonOutput "hello world" = ParsedOutput.raw "hello world" :=
  ⟨parseJsonOutput_characterization.1 "  " rfl,
   parseJsonOutput_characterization.2.2.1 " [1,\"a\",null] "
     (Json.arr [Json.num 1, Json.str "a", Json.null]) (by decide) rfl,
   parseJsonOutput_characterization.2.2.2 "hello world" (by decide) rfl⟩

end ObsidianCliMcp
